import Mathlib

/-!
Verification of the Bing photo download script
(`scripts/download-bing-photos.cjs`).

The script is a one-shot batch job: it collects image candidates from the
Bing image archive across day offsets and locale markets, deduplicates them,
pads the list by cycling, downloads each candidate with a byte ceiling, and
re-encodes oversized files through a (width, quality) grid until they fit a
budget.  The definitions below are a shallow embedding of that script:

* network responses become explicit data (`HttpResponse`, chunk lists);
* the `sharp` re-encoder becomes an abstract size function
  `enc : Nat → Nat → Nat` giving the encoded byte size per (width, quality);
* the filesystem becomes an association list from file name index to size;
* the event-driven streaming of `downloadWithLimit` becomes a fold over the
  list of body chunks, faithful to the handler logic (accumulate, abort once
  the running total exceeds the limit).
-/

namespace BingPhotos

/-! ## Constants (script lines 7-19) -/

def TARGET_COUNT : Nat := 50

def MAX_BYTES : Nat := 500 * 1024

def MAX_DOWNLOAD_BYTES : Nat := 10 * 1024 * 1024

def MARKETS : List String :=
  ["zh-CN", "en-US", "en-GB", "ja-JP", "de-DE", "fr-FR", "it-IT", "es-ES", "pt-BR", "pt-PT",
   "ko-KR", "zh-TW", "ru-RU", "nl-NL", "sv-SE", "da-DK", "fi-FI", "no-NO", "pl-PL", "tr-TR",
   "th-TH", "id-ID", "vi-VN", "hi-IN", "ar-SA", "he-IL", "cs-CZ", "hu-HU", "el-GR", "ro-RO",
   "uk-UA", "bg-BG"]

def BATCH_SIZE : Nat := 1

def MAX_FETCH_DAYS : Nat := 8

/-! ## `downloadWithLimit` (script lines 44-83)

A response is modelled by its status code, the parsed numeric value of the
`content-length` header when present (`none` models an absent, empty or
non-numeric header, all of which fail the JS truthiness/NaN comparison at
line 54), and the list of body chunks, each a list of bytes. -/

structure HttpResponse where
  statusCode : Nat
  contentLength : Option Nat
  chunks : List (List Nat)
deriving DecidableEq

/-- The tri-state outcome of `downloadWithLimit`: `{ok:true,bytes}`,
`{ok:false,reason:'too-large'}` or `{ok:false,reason:'status:...'}`. -/
inductive DlOutcome where
  | ok (bytes : Nat)
  | tooLarge
  | badStatus (code : Nat)
deriving DecidableEq

/-- State of the streaming handlers after the data events: whether the
response was destroyed mid-stream, the running byte total, and the buffered
chunks (concatenated). -/
structure StreamResult where
  aborted : Bool
  total : Nat
  data : List Nat
deriving DecidableEq

/-- The `res.on('data', ...)` handler of script lines 62-70: accumulate
chunks, and once the running total exceeds `maxBytes`, set `aborted` and
destroy the response (no further chunks are processed, the chunk that
overflowed is not buffered). -/
def streamChunks (maxBytes : Nat) : List (List Nat) → Nat → List Nat → StreamResult
  | [], total, acc => ⟨false, total, acc⟩
  | c :: rest, total, acc =>
    let t := total + c.length
    if maxBytes < t then ⟨true, t, acc⟩
    else streamChunks maxBytes rest t (acc ++ c)

/-- The `lengthHeader && Number(lengthHeader) > maxBytes` guard of script
line 54: `false` when the header is absent (and when it is non-numeric,
since `NaN > maxBytes` is false). -/
def overLimitHeader (contentLength : Option Nat) (maxBytes : Nat) : Bool :=
  match contentLength with
  | some len => decide (maxBytes < len)
  | none => false

/-- `downloadWithLimit` (script lines 44-83).  Returns the tri-state outcome
together with the file written to `dest` (`none` when no file is written). -/
def downloadWithLimit (res : HttpResponse) (maxBytes : Nat) :
    DlOutcome × Option (List Nat) :=
  if res.statusCode ≠ 200 then (.badStatus res.statusCode, none)
  else if overLimitHeader res.contentLength maxBytes then (.tooLarge, none)
  else
    let s := streamChunks maxBytes res.chunks 0 []
    if s.aborted then (.tooLarge, none)
    else (.ok s.total, some s.data)

/-- Total number of body bytes across all chunks of a response. -/
def totalLen (chunks : List (List Nat)) : Nat := (chunks.map List.length).sum

/-! ## `compressToLimit` (script lines 99-126)

`sharp(inputBuffer).resize({width, withoutEnlargement}).jpeg({quality})` is
abstracted by a size function `enc targetWidth quality` giving the byte
length of the re-encoded buffer.  `sharp(...).metadata()` is modelled by an
`Option ImageMeta` (`none` when metadata extraction throws). -/

structure ImageMeta where
  width : Option Nat
deriving DecidableEq

/-- The fixed width list of script line 108 (everything after the prepended
source width). -/
def fixedWidths : List Nat := [1000, 900, 800, 700, 640, 560, 480, 400]

/-- The quality ladder of script line 111. -/
def qualities : List Nat := [80, 70, 60, 55, 50, 45, 40, 35]

/-- `arr.filter((w, idx, arr) => arr.indexOf(w) === idx)` keeps exactly the
first occurrence of each value, in order; `seen` holds the values already
emitted. -/
def dedupFrom (seen : List Nat) : List Nat → List Nat
  | [] => []
  | x :: xs => if x ∈ seen then dedupFrom seen xs else x :: dedupFrom (x :: seen) xs

def dedupFirst (l : List Nat) : List Nat := dedupFrom [] l

/-- The width candidate ladder of script lines 108-110: prepend the source
width, keep the positive widths not exceeding the source width, drop
duplicates keeping first occurrences. -/
def mkCandidates (width : Nat) : List Nat :=
  dedupFirst ((width :: fixedWidths).filter (fun w => decide (0 < w ∧ w ≤ width)))

/-- The inner quality loop of script lines 114-123: first quality whose
encode fits the budget. -/
def searchQualities (enc : Nat → Nat → Nat) (maxBytes w : Nat) : List Nat → Option Nat
  | [] => none
  | q :: qs => if enc w q ≤ maxBytes then some q else searchQualities enc maxBytes w qs

/-- The outer width loop of script lines 113-124: widths in ladder order,
qualities within each width. -/
def searchGrid (enc : Nat → Nat → Nat) (maxBytes : Nat) : List Nat → Option (Nat × Nat)
  | [] => none
  | w :: ws =>
    match searchQualities enc maxBytes w qualities with
    | some q => some (w, q)
    | none => searchGrid enc maxBytes ws

/-- `compressToLimit` (script lines 99-126): `none` models `return false`
(metadata failure or grid exhausted); `some (w, q)` models `return true`
after writing the encode at `(w, q)` back to the file, whose size is then
`enc w q`.  `meta.width || 0` becomes `Option.getD 0`. -/
def compressToLimit (enc : Nat → Nat → Nat) (meta : Option ImageMeta) (maxBytes : Nat) :
    Option (Nat × Nat) :=
  match meta with
  | none => none
  | some m => searchGrid enc maxBytes (mkCandidates (m.width.getD 0))

/-! ## Collector (script lines 131-162) -/

/-- An element of the `images` array of a metadata payload: `url` is
`item.url` (`none` when absent or falsy), `urlbase` is `item.urlbase || null`
(`none` when absent or falsy). -/
structure RawItem where
  url : Option String
  urlbase : Option String
deriving DecidableEq

/-- A collected descriptor `{ url, urlBase }` (script line 155). -/
structure Candidate where
  url : String
  urlBase : Option String
deriving DecidableEq

/-- The dedupe key of a collected candidate: `urlBase || url`. -/
def ckey (c : Candidate) : String := c.urlBase.getD c.url

/-- `https://www.bing.com${u}` (script line 149). -/
def bingUrl (u : String) : String := "https://www.bing.com" ++ u

/-- The mutable collector state: `images` accumulator, `seen` key set, and
the trace of `(idx, market)` metadata fetches performed, in order. -/
structure CollectState where
  images : List Candidate
  seen : List String
  trace : List (Nat × String)
deriving DecidableEq

/-- The `for (const item of items)` loop of script lines 148-157. -/
def processItems : List RawItem → CollectState → CollectState
  | [], st => st
  | item :: rest, st =>
    match item.url with
    | none => processItems rest st
    | some u =>
      let url := bingUrl u
      let key := item.urlbase.getD url
      if key ∈ st.seen then processItems rest st
      else
        let st1 : CollectState :=
          ⟨st.images ++ [⟨url, item.urlbase⟩], key :: st.seen, st.trace⟩
        if TARGET_COUNT ≤ st1.images.length then st1
        else processItems rest st1

/-- The `for (const market of MARKETS)` loop of script lines 136-159.  A
fetch error or an empty/malformed payload both contribute an empty item
list, so `fetch : Nat → String → List RawItem` models
`extractImages` applied to the (possibly failed) `fetchJson` result. -/
def processMarkets (fetch : Nat → String → List RawItem) (idx : Nat) :
    List String → CollectState → CollectState
  | [], st => st
  | mkt :: rest, st =>
    let st1 := processItems (fetch idx mkt) ⟨st.images, st.seen, st.trace ++ [(idx, mkt)]⟩
    if TARGET_COUNT ≤ st1.images.length then st1
    else processMarkets fetch idx rest st1

/-- The `while (images.length < TARGET_COUNT && idx < MAX_FETCH_DAYS)` loop
of script lines 135-162, with `idx += BATCH_SIZE` where `BATCH_SIZE = 1`.
The fuel argument only serves structural recursion; `MAX_FETCH_DAYS` units
suffice because `idx` increases by one per iteration. -/
def collectLoop (fetch : Nat → String → List RawItem) :
    Nat → CollectState → Nat → CollectState
  | 0, st, _ => st
  | fuel + 1, st, idx =>
    if st.images.length < TARGET_COUNT ∧ idx < MAX_FETCH_DAYS then
      collectLoop fetch fuel (processMarkets fetch idx MARKETS st) (idx + 1)
    else st

def collect (fetch : Nat → String → List RawItem) : CollectState :=
  collectLoop fetch MAX_FETCH_DAYS ⟨[], [], []⟩ 0

/-- The fetch order claimed for a run in which the target is never reached:
all markets for day offset 0, then all markets for day offset 1, and so on
(locale loop nested inside the day-offset loop). -/
def dayMajorTrace : List (Nat × String) :=
  (List.range MAX_FETCH_DAYS).flatMap (fun d => MARKETS.map (fun m => (d, m)))

/-- Fetch order for the remaining day offsets starting at `idx`. -/
def dayMajorFrom (idx : Nat) : List (Nat × String) :=
  (List.range' idx (MAX_FETCH_DAYS - idx)).flatMap (fun d => MARKETS.map (fun m => (d, m)))

/-- `l₁` is an initial segment of `l₂`. -/
def InitSeg {α : Type} (l₁ l₂ : List α) : Prop := ∃ t, l₁ ++ t = l₂

/-! ## Padding (script lines 169-174) -/

/-- `while (images.length < TARGET_COUNT) images.push(original[images.length
% original.length])`.  Fuel only drives structural recursion;
`TARGET_COUNT` units suffice since each iteration adds one element. -/
def padLoop (original : List Candidate) : Nat → List Candidate → List Candidate
  | 0, imgs => imgs
  | fuel + 1, imgs =>
    if imgs.length < TARGET_COUNT then
      padLoop original fuel
        (imgs ++ [original.getD (imgs.length % original.length) ⟨"", none⟩])
    else imgs

def padImages (images : List Candidate) : List Candidate :=
  if images.length < TARGET_COUNT then padLoop images TARGET_COUNT images else images

/-! ## Save loop (script lines 176-208)

One `Attempt` models one URL of a slot's candidate ladder: `dl` is the
outcome of `downloadWithLimit` for that URL (`some size` when it resolved
`ok` after writing `size` bytes, `none` when it resolved `ok:false` or the
promise rejected), `meta` and `enc` describe the downloaded file to the
re-encoder.  The filesystem is an association list from file name index
(the `k` of `k.jpg`) to byte size. -/

structure Attempt where
  dl : Option Nat
  meta : Option ImageMeta
  enc : Nat → Nat → Nat

/-- `fs.writeFile` / `fs.writeFileSync`: replace the binding when the name
exists, append otherwise. -/
def writeFs (fs : List (Nat × Nat)) (name size : Nat) : List (Nat × Nat) :=
  if name ∈ fs.map Prod.fst then
    fs.map (fun p => if p.1 = name then (name, size) else p)
  else fs ++ [(name, size)]

/-- `fs.unlinkSync`: drop the binding. -/
def unlinkFs (fs : List (Nat × Nat)) (name : Nat) : List (Nat × Nat) :=
  fs.filter (fun p => decide (p.1 ≠ name))

/-- The `for (const imageUrl of candidates)` ladder of script lines 183-203:
download to `name`, compress when over `MAX_BYTES` (deleting the file and
falling through to the next URL when compression fails), stop at the first
stored candidate.  Returns the stored file's final size (`none` when the
ladder is exhausted) and the updated filesystem. -/
def tryCandidates (name : Nat) : List Attempt → List (Nat × Nat) → Option Nat × List (Nat × Nat)
  | [], fs => (none, fs)
  | a :: rest, fs =>
    match a.dl with
    | none => tryCandidates name rest fs
    | some size =>
      let fs1 := writeFs fs name size
      if MAX_BYTES < size then
        match compressToLimit a.enc a.meta MAX_BYTES with
        | some wq => (some (a.enc wq.1 wq.2), writeFs fs1 name (a.enc wq.1 wq.2))
        | none => tryCandidates name rest (unlinkFs fs1 name)
      else (some size, fs1)

/-- The `for (let i = 0; i < images.length && saved < TARGET_COUNT; ...)`
loop of script lines 177-208: slot `i` writes to `${saved + 1}.jpg`, and
`saved` increments exactly when the slot stores a file. -/
def saveLoop : List (List Attempt) → Nat → List (Nat × Nat) → Nat × List (Nat × Nat)
  | [], saved, fs => (saved, fs)
  | slot :: rest, saved, fs =>
    if saved < TARGET_COUNT then
      match tryCandidates (saved + 1) slot fs with
      | (some _, fs1) => saveLoop rest (saved + 1) fs1
      | (none, fs1) => saveLoop rest saved fs1
    else (saved, fs)

/-- `main` (script lines 128-214), returning the process exit status, the
final `saved` counter and the final filesystem.  `env i` gives the candidate
ladder attempts for slot `i` of the padded list. -/
def mainRun (fetch : Nat → String → List RawItem) (env : Nat → List Attempt) :
    Nat × Nat × List (Nat × Nat) :=
  let st := collect fetch
  if st.images.length = 0 then (1, 0, [])
  else
    let padded := padImages st.images
    let r := saveLoop ((List.range padded.length).map env) 0 []
    (0, r.1, r.2)

/-! ## Theorems -/

/-- If the running total would stay within the limit on entry and the whole
remaining body overflows the limit, the data handler eventually destroys the
response. -/
theorem streamChunks_overflow (maxBytes : Nat) :
    ∀ (chunks : List (List Nat)) (total : Nat) (acc : List Nat),
      total ≤ maxBytes → maxBytes < total + totalLen chunks →
      (streamChunks maxBytes chunks total acc).aborted = true := by
  intro chunks
  induction chunks with
  | nil =>
    intro total acc hle hbig
    simp only [totalLen, List.map_nil, List.sum_nil] at hbig
    omega
  | cons c rest ih =>
    intro total acc hle hbig
    simp only [streamChunks]
    by_cases h : maxBytes < total + c.length
    · simp [h]
    · simp only [h, if_false]
      apply ih
      · omega
      · simp only [totalLen, List.map_cons, List.sum_cons] at hbig ⊢
        omega

/-- C7: for every response carrying a content-length header whose numeric
value exceeds the byte limit, `downloadWithLimit` returns the
failure-too-large outcome without consuming the body, and writes no file. -/
theorem download_header_guard (res : HttpResponse) (maxBytes len : Nat)
    (h200 : res.statusCode = 200) (hlen : res.contentLength = some len)
    (hbig : maxBytes < len) :
    downloadWithLimit res maxBytes = (DlOutcome.tooLarge, none) := by
  simp [downloadWithLimit, overLimitHeader, h200, hlen, hbig]

/-- Witness for `download_header_guard`: a 200 response advertising 600
bytes against a 500-byte ceiling. -/
theorem download_header_guard_witness :
    downloadWithLimit ⟨200, some 600, [[1]]⟩ 500 = (DlOutcome.tooLarge, none) :=
  download_header_guard ⟨200, some 600, [[1]]⟩ 500 600 rfl rfl (by decide)

/-- C2: for every 200 response with no over-limit content-length header
whose body bytes exceed the ceiling mid-stream, `downloadWithLimit` destroys
the response before the end of the stream, writes no file, and resolves the
failure-too-large outcome. -/
theorem download_stream_overflow (res : HttpResponse) (maxBytes : Nat)
    (h200 : res.statusCode = 200)
    (hcl : ∀ len, res.contentLength = some len → len ≤ maxBytes)
    (hbig : maxBytes < totalLen res.chunks) :
    downloadWithLimit res maxBytes = (DlOutcome.tooLarge, none) ∧
    (streamChunks maxBytes res.chunks 0 []).aborted = true := by
  have hab : (streamChunks maxBytes res.chunks 0 []).aborted = true :=
    streamChunks_overflow maxBytes res.chunks 0 [] (Nat.zero_le _) (by omega)
  refine ⟨?_, hab⟩
  have hover : overLimitHeader res.contentLength maxBytes = false := by
    cases hcl2 : res.contentLength with
    | none => simp [overLimitHeader]
    | some len =>
      simp only [overLimitHeader, decide_eq_false_iff_not, Nat.not_lt]
      exact hcl len hcl2
  simp [downloadWithLimit, h200, hover, hab]

/-- Witness for `download_stream_overflow`: no content-length header, two
chunks totalling 4 bytes against a 3-byte ceiling. -/
theorem download_stream_overflow_witness :
    downloadWithLimit ⟨200, none, [[1, 2], [3, 4]]⟩ 3 = (DlOutcome.tooLarge, none) ∧
    (streamChunks 3 [[1, 2], [3, 4]] 0 []).aborted = true :=
  download_stream_overflow ⟨200, none, [[1, 2], [3, 4]]⟩ 3 rfl
    (fun _ h => Option.noConfusion h) (by decide)

/-- Elements emitted by `dedupFrom` come from the input and were not
already emitted. -/
theorem mem_dedupFrom : ∀ (l seen : List Nat) (y : Nat),
    y ∈ dedupFrom seen l → y ∈ l ∧ y ∉ seen := by
  intro l
  induction l with
  | nil => intro seen y h; simp [dedupFrom] at h
  | cons x xs ih =>
    intro seen y h
    simp only [dedupFrom] at h
    by_cases hx : x ∈ seen
    · rw [if_pos hx] at h
      have := ih seen y h
      exact ⟨List.mem_cons_of_mem _ this.1, this.2⟩
    · rw [if_neg hx] at h
      rcases List.mem_cons.mp h with rfl | h2
      · exact ⟨List.mem_cons_self _ _, hx⟩
      · have := ih (x :: seen) y h2
        refine ⟨List.mem_cons_of_mem _ this.1, fun hy => this.2 (List.mem_cons_of_mem _ hy)⟩

/-- `dedupFrom` turns a nonincreasing list into a strictly decreasing one. -/
theorem dedupFrom_sorted : ∀ (l seen : List Nat), l.Pairwise (· ≥ ·) →
    (dedupFrom seen l).Pairwise (· > ·) := by
  intro l
  induction l with
  | nil => intro seen _; simp [dedupFrom]
  | cons x xs ih =>
    intro seen hp
    rcases List.pairwise_cons.mp hp with ⟨hge, hxs⟩
    simp only [dedupFrom]
    by_cases hx : x ∈ seen
    · rw [if_pos hx]; exact ih seen hxs
    · rw [if_neg hx]
      refine List.pairwise_cons.mpr ⟨?_, ih (x :: seen) hxs⟩
      intro y hy
      have hmem := mem_dedupFrom xs (x :: seen) y hy
      have h1 : x ≥ y := hge y hmem.1
      have h2 : y ≠ x := fun h => hmem.2 (h ▸ List.mem_cons_self _ _)
      omega

/-- The filtered width list (before dedup) is nonincreasing. -/
theorem filtered_widths_sorted (width : Nat) :
    ((width :: fixedWidths).filter
      (fun w => decide (0 < w ∧ w ≤ width))).Pairwise (· ≥ ·) := by
  have hfix : (fixedWidths.filter
      (fun w => decide (0 < w ∧ w ≤ width))).Pairwise (· ≥ ·) := by
    have : fixedWidths.Pairwise (· ≥ ·) := by decide
    exact this.sublist (List.filter_sublist _)
  rw [List.filter_cons]
  split
  · refine List.pairwise_cons.mpr ⟨?_, hfix⟩
    intro y hy
    rcases List.mem_filter.mp hy with ⟨_, hdec⟩
    exact (of_decide_eq_true hdec).2
  · exact hfix

/-- The width candidate ladder is strictly decreasing. -/
theorem mkCandidates_sorted (width : Nat) : (mkCandidates width).Pairwise (· > ·) :=
  dedupFrom_sorted _ [] (filtered_widths_sorted width)

/-- Every ladder width is positive and never exceeds the source width (no
upscaling). -/
theorem mem_mkCandidates {width w : Nat} (h : w ∈ mkCandidates width) :
    0 < w ∧ w ≤ width := by
  have hmem := (mem_dedupFrom _ [] w h).1
  rcases List.mem_filter.mp hmem with ⟨_, hdec⟩
  exact of_decide_eq_true hdec

/-- A quality accepted by the inner loop fits the budget. -/
theorem searchQualities_le (enc : Nat → Nat → Nat) (maxB w : Nat) :
    ∀ (qs : List Nat) (q : Nat), searchQualities enc maxB w qs = some q →
      enc w q ≤ maxB := by
  intro qs
  induction qs with
  | nil => intro q h; simp [searchQualities] at h
  | cons q0 qs ih =>
    intro q h
    simp only [searchQualities] at h
    by_cases h0 : enc w q0 ≤ maxB
    · rw [if_pos h0] at h
      cases h
      exact h0
    · rw [if_neg h0] at h
      exact ih q h

/-- The inner loop returns the first fitting quality: everything of higher
quality in a strictly decreasing ladder was tried and exceeded the budget. -/
theorem searchQualities_spec (enc : Nat → Nat → Nat) (maxB w : Nat) :
    ∀ (qs : List Nat), qs.Pairwise (· > ·) → ∀ (q : Nat),
      searchQualities enc maxB w qs = some q →
      q ∈ qs ∧ enc w q ≤ maxB ∧ ∀ q2 ∈ qs, q < q2 → maxB < enc w q2 := by
  intro qs
  induction qs with
  | nil => intro _ q h; simp [searchQualities] at h
  | cons q0 qs ih =>
    intro hp q h
    rcases List.pairwise_cons.mp hp with ⟨hgt, hqs⟩
    simp only [searchQualities] at h
    by_cases h0 : enc w q0 ≤ maxB
    · rw [if_pos h0] at h
      cases h
      refine ⟨List.mem_cons_self _ _, h0, ?_⟩
      intro q2 hq2 hlt
      rcases List.mem_cons.mp hq2 with rfl | h2
      · omega
      · have := hgt q2 h2
        omega
    · rw [if_neg h0] at h
      rcases ih hqs q h with ⟨hmem, hle, hrest⟩
      refine ⟨List.mem_cons_of_mem _ hmem, hle, ?_⟩
      intro q2 hq2 hlt
      rcases List.mem_cons.mp hq2 with rfl | h2
      · omega
      · exact hrest q2 h2 hlt

/-- When the inner loop is exhausted every quality at that width overflows
the budget. -/
theorem searchQualities_none (enc : Nat → Nat → Nat) (maxB w : Nat) :
    ∀ (qs : List Nat), searchQualities enc maxB w qs = none →
      ∀ q ∈ qs, maxB < enc w q := by
  intro qs
  induction qs with
  | nil => intro _ q h; simp at h
  | cons q0 qs ih =>
    intro h q hq
    simp only [searchQualities] at h
    by_cases h0 : enc w q0 ≤ maxB
    · rw [if_pos h0] at h; cases h
    · rw [if_neg h0] at h
      rcases List.mem_cons.mp hq with rfl | h2
      · omega
      · exact ih h q h2

/-- An accepted grid pair fits the budget. -/
theorem searchGrid_le (enc : Nat → Nat → Nat) (maxB : Nat) :
    ∀ (ws : List Nat) (w q : Nat), searchGrid enc maxB ws = some (w, q) →
      enc w q ≤ maxB := by
  intro ws
  induction ws with
  | nil => intro w q h; simp [searchGrid] at h
  | cons w0 ws ih =>
    intro w q h
    simp only [searchGrid] at h
    cases hq : searchQualities enc maxB w0 qualities with
    | some q0 =>
      rw [hq] at h
      have hwq := Option.some.inj h
      have hw : w0 = w := congrArg Prod.fst hwq
      have hq2 : q0 = q := congrArg Prod.snd hwq
      rw [← hw, ← hq2]
      exact searchQualities_le enc maxB w0 qualities q0 hq
    | none =>
      rw [hq] at h
      exact ih w q h

/-- The grid search accepts the first fitting pair in width-major,
quality-minor order: every pair at a strictly larger width, or at the same
width and a strictly higher quality, was tried and overflowed the budget. -/
theorem searchGrid_spec (enc : Nat → Nat → Nat) (maxB : Nat) :
    ∀ (ws : List Nat), ws.Pairwise (· > ·) → ∀ (w q : Nat),
      searchGrid enc maxB ws = some (w, q) →
      w ∈ ws ∧ q ∈ qualities ∧ enc w q ≤ maxB ∧
        ∀ w2 ∈ ws, ∀ q2 ∈ qualities, (w < w2 ∨ (w2 = w ∧ q < q2)) →
          maxB < enc w2 q2 := by
  intro ws
  induction ws with
  | nil => intro _ w q h; simp [searchGrid] at h
  | cons w0 ws ih =>
    intro hp w q h
    rcases List.pairwise_cons.mp hp with ⟨hgt, hws⟩
    have hqual : qualities.Pairwise (· > ·) := by decide
    simp only [searchGrid] at h
    cases hq : searchQualities enc maxB w0 qualities with
    | some q0 =>
      rw [hq] at h
      have hwq := Option.some.inj h
      have hw : w0 = w := congrArg Prod.fst hwq
      have hq2 : q0 = q := congrArg Prod.snd hwq
      rw [← hw, ← hq2]
      rcases searchQualities_spec enc maxB w0 qualities hqual q0 hq with ⟨hqm, hle, hrest⟩
      refine ⟨List.mem_cons_self _ _, hqm, hle, ?_⟩
      intro w2 hw2 q2 hq2 hpref
      rcases List.mem_cons.mp hw2 with rfl | h2
      · rcases hpref with hlt | ⟨_, hqlt⟩
        · omega
        · exact hrest q2 hq2 hqlt
      · have := hgt w2 h2
        rcases hpref with hlt | ⟨heq, _⟩
        · omega
        · omega
    | none =>
      rw [hq] at h
      rcases ih hws w q h with ⟨hwm, hqm, hle, hrest⟩
      have hwlt : w0 > w := hgt w hwm
      refine ⟨List.mem_cons_of_mem _ hwm, hqm, hle, ?_⟩
      intro w2 hw2 q2 hq2 hpref
      rcases List.mem_cons.mp hw2 with rfl | h2
      · exact searchQualities_none enc maxB w2 qualities hq q2 hq2
      · exact hrest w2 h2 q2 hq2 hpref

/-- A successful compression fits the budget (the re-encoded buffer written
back to the file has at most `maxBytes` bytes). -/
theorem compressToLimit_le (enc : Nat → Nat → Nat) (meta : Option ImageMeta)
    (maxB : Nat) (wq : Nat × Nat) (h : compressToLimit enc meta maxB = some wq) :
    enc wq.1 wq.2 ≤ maxB := by
  cases meta with
  | none => simp [compressToLimit] at h
  | some m =>
    simp only [compressToLimit] at h
    exact searchGrid_le enc maxB _ wq.1 wq.2 h

/-- C6: `compressToLimit` enumerates (width, quality) pairs width-major over
the strictly decreasing width ladder (capped at the source width, never
upscaling) and quality-minor over the descending quality ladder, accepting
the first pair that fits the budget, so no pair is accepted before every
pair of larger width, or equal width and higher quality, has been tried and
found over budget. -/
theorem compress_grid_order (enc : Nat → Nat → Nat) (maxB width w q : Nat)
    (h : compressToLimit enc (some ⟨some width⟩) maxB = some (w, q)) :
    w ∈ mkCandidates width ∧ q ∈ qualities ∧ w ≤ width ∧ enc w q ≤ maxB ∧
      ∀ w2 ∈ mkCandidates width, ∀ q2 ∈ qualities,
        (w < w2 ∨ (w2 = w ∧ q < q2)) → maxB < enc w2 q2 := by
  simp only [compressToLimit, Option.getD_some] at h
  rcases searchGrid_spec enc maxB (mkCandidates width) (mkCandidates_sorted width)
    w q h with ⟨hwm, hqm, hle, hrest⟩
  exact ⟨hwm, hqm, (mem_mkCandidates hwm).2, hle, hrest⟩

/-- Witness for `compress_grid_order`: with encoded size `w * q` and budget
28000, an 800-wide source accepts `(800, 35)`, and the strictly preferred
pair `(800, 40)` was tried and overflows. -/
theorem compress_grid_order_witness :
    (28000 : Nat) < (fun w q => w * q) 800 40 :=
  (compress_grid_order (fun w q => w * q) 28000 800 800 35 (by decide)).2.2.2.2
    800 (by decide) 40 (by decide) (Or.inr ⟨rfl, by decide⟩)

/-- C10: when the image metadata is readable but reports no width (absent
or zero), the width ladder is empty, so `compressToLimit` fails for every
possible encoder without attempting a re-encode; the caller therefore
unlinks the oversized file and falls through to the next URL candidate,
even if some encoding could have fit the budget. -/
theorem zero_width_rejected (maxB : Nat) (m : ImageMeta)
    (hm : m.width = none ∨ m.width = some 0) :
    (∀ enc, compressToLimit enc (some m) maxB = none) ∧
    (∀ (a : Attempt) (rest : List Attempt) (name s : Nat) (fs : List (Nat × Nat)),
      a.dl = some s → a.meta = some m → MAX_BYTES < s →
      tryCandidates name (a :: rest) fs =
        tryCandidates name rest (unlinkFs (writeFs fs name s) name)) := by
  have hw0 : m.width.getD 0 = 0 := by rcases hm with h | h <;> simp [h]
  have hempty : mkCandidates 0 = [] := by decide
  have hc : ∀ (enc : Nat → Nat → Nat) (b : Nat), compressToLimit enc (some m) b = none := by
    intro enc b
    simp only [compressToLimit, hw0, hempty]
    rfl
  refine ⟨fun enc => hc enc maxB, ?_⟩
  intro a rest name s fs hdl hmeta hbig
  simp only [tryCandidates, hdl, hmeta, hc a.enc MAX_BYTES, if_pos hbig]

/-- Witness for `zero_width_rejected`: a zero-cost encoder would fit any
budget, yet a metadata result with no width still fails. -/
theorem zero_width_rejected_witness :
    compressToLimit (fun _ _ => 0) (some ⟨none⟩) 100 = none :=
  (zero_width_rejected 100 ⟨none⟩ (Or.inl rfl)).1 (fun _ _ => 0)

/-- Membership in a written filesystem: an entry either survived from
before (and is not the written name) or is the written binding. -/
theorem mem_writeFs {fs : List (Nat × Nat)} {name size : Nat} {p : Nat × Nat}
    (hp : p ∈ writeFs fs name size) : (p ∈ fs ∧ p.1 ≠ name) ∨ p = (name, size) := by
  unfold writeFs at hp
  split at hp
  · rcases List.mem_map.mp hp with ⟨q, hq, hqe⟩
    by_cases h : q.1 = name
    · right; rw [if_pos h] at hqe; exact hqe.symm
    · left; rw [if_neg h] at hqe; exact hqe ▸ ⟨hq, h⟩
  · rename_i hnm
    rcases List.mem_append.mp hp with h | h
    · refine Or.inl ⟨h, fun he => hnm ?_⟩
      exact List.mem_map.mpr ⟨p, h, he⟩
    · right; simpa using h

/-- Replacing the binding of `name` does not change the entries filtered
away from `name`. -/
theorem filter_map_replace (name s : Nat) : ∀ fs : List (Nat × Nat),
    (fs.map (fun p => if p.1 = name then (name, s) else p)).filter
        (fun p => decide (p.1 ≠ name)) =
      fs.filter (fun p => decide (p.1 ≠ name)) := by
  intro fs
  induction fs with
  | nil => rfl
  | cons q fs ih =>
    simp only [List.map_cons, List.filter_cons]
    by_cases h : q.1 = name
    · rw [if_pos h]
      have hd1 : (decide ((name, s).1 ≠ name)) = false := by simp
      have hd2 : (decide (q.1 ≠ name)) = false := by simp [h]
      rw [hd1, hd2, ih]
      simp
    · rw [if_neg h]
      have hd2 : (decide (q.1 ≠ name)) = true := by simp [h]
      rw [hd2, ih]

/-- Deleting a name right after writing it restores the deletion of the
original filesystem. -/
theorem unlinkFs_writeFs (fs : List (Nat × Nat)) (name s : Nat) :
    unlinkFs (writeFs fs name s) name = unlinkFs fs name := by
  unfold writeFs unlinkFs
  split
  · exact filter_map_replace name s fs
  · simp [List.filter_append]

/-- Writing a name absent from the filesystem appends its binding. -/
theorem writeFs_fresh (fs : List (Nat × Nat)) (name s : Nat)
    (h : ∀ q ∈ fs, q.1 ≠ name) : writeFs fs name s = fs ++ [(name, s)] := by
  unfold writeFs
  rw [if_neg]
  intro hmem
  rcases List.mem_map.mp hmem with ⟨q, hq, he⟩
  exact h q hq he

/-- Overwriting the binding just appended for a previously absent name. -/
theorem writeFs_overwrite (fs : List (Nat × Nat)) (name s t : Nat)
    (h : ∀ q ∈ fs, q.1 ≠ name) :
    writeFs (fs ++ [(name, s)]) name t = fs ++ [(name, t)] := by
  unfold writeFs
  rw [if_pos]
  · rw [List.map_append]
    congr 1
    · have heach : ∀ q ∈ fs, (fun p => if p.1 = name then (name, t) else p) q = q := by
        intro q hq
        simp [h q hq]
      rw [List.map_congr_left heach]
      exact List.map_id fs
    · simp
  · simp

/-- Deleting an absent name is a no-op. -/
theorem unlinkFs_fresh (fs : List (Nat × Nat)) (name : Nat)
    (h : ∀ q ∈ fs, q.1 ≠ name) : unlinkFs fs name = fs := by
  unfold unlinkFs
  apply List.filter_eq_self.mpr
  intro q hq
  simpa using h q hq

/-- Entries left behind by the candidate ladder fit the storage budget,
provided the starting filesystem does. -/
theorem tryCandidates_budget (name : Nat) : ∀ (slot : List Attempt) (fs : List (Nat × Nat)),
    (∀ p ∈ fs, p.2 ≤ MAX_BYTES) →
    ∀ p ∈ (tryCandidates name slot fs).2, p.2 ≤ MAX_BYTES := by
  intro slot
  induction slot with
  | nil => intro fs hfs p hp; exact hfs p hp
  | cons a rest ih =>
    intro fs hfs p hp
    cases hdl : a.dl with
    | none =>
      simp only [tryCandidates, hdl] at hp
      exact ih fs hfs p hp
    | some size =>
      simp only [tryCandidates, hdl] at hp
      by_cases hbig : MAX_BYTES < size
      · rw [if_pos hbig] at hp
        cases hcomp : compressToLimit a.enc a.meta MAX_BYTES with
        | some wq =>
          rw [hcomp] at hp
          have hle := compressToLimit_le a.enc a.meta MAX_BYTES wq hcomp
          rcases mem_writeFs hp with ⟨hin, hne⟩ | he
          · rcases mem_writeFs hin with ⟨hin2, _⟩ | he2
            · exact hfs p hin2
            · exact absurd (congrArg Prod.fst he2) hne
          · rw [he]
            exact hle
        | none =>
          rw [hcomp] at hp
          refine ih _ ?_ p hp
          intro q hq
          rw [unlinkFs_writeFs] at hq
          exact hfs q (List.mem_filter.mp hq).1
      · rw [if_neg hbig] at hp
        rcases mem_writeFs hp with ⟨hin, _⟩ | he
        · exact hfs p hin
        · rw [he]
          omega

/-- When the target name is absent, the ladder leaves the filesystem alone
on failure and appends exactly the stored binding on success. -/
theorem tryCandidates_fresh (name : Nat) : ∀ (slot : List Attempt) (fs : List (Nat × Nat)),
    (∀ q ∈ fs, q.1 ≠ name) →
    ((tryCandidates name slot fs).1 = none → (tryCandidates name slot fs).2 = fs) ∧
    (∀ s, (tryCandidates name slot fs).1 = some s →
      (tryCandidates name slot fs).2 = fs ++ [(name, s)]) := by
  intro slot
  induction slot with
  | nil =>
    intro fs hfs
    exact ⟨fun _ => rfl, fun s h => Option.noConfusion h⟩
  | cons a rest ih =>
    intro fs hfs
    cases hdl : a.dl with
    | none =>
      have hstep : tryCandidates name (a :: rest) fs = tryCandidates name rest fs := by
        simp only [tryCandidates, hdl]
      rw [hstep]
      exact ih fs hfs
    | some size =>
      by_cases hbig : MAX_BYTES < size
      · cases hcomp : compressToLimit a.enc a.meta MAX_BYTES with
        | some wq =>
          have hstep : tryCandidates name (a :: rest) fs =
              (some (a.enc wq.1 wq.2),
                writeFs (writeFs fs name size) name (a.enc wq.1 wq.2)) := by
            simp only [tryCandidates, hdl, if_pos hbig, hcomp]
          rw [hstep]
          refine ⟨fun h => Option.noConfusion h, fun s h => ?_⟩
          have hs : a.enc wq.1 wq.2 = s := Option.some.inj h
          show writeFs (writeFs fs name size) name (a.enc wq.1 wq.2) = fs ++ [(name, s)]
          rw [writeFs_fresh fs name size hfs,
            writeFs_overwrite fs name size (a.enc wq.1 wq.2) hfs, hs]
        | none =>
          have hstep : tryCandidates name (a :: rest) fs =
              tryCandidates name rest (unlinkFs (writeFs fs name size) name) := by
            simp only [tryCandidates, hdl, if_pos hbig, hcomp]
          rw [hstep, unlinkFs_writeFs, unlinkFs_fresh fs name hfs]
          exact ih fs hfs
      · have hstep : tryCandidates name (a :: rest) fs = (some size, writeFs fs name size) := by
          simp only [tryCandidates, hdl, if_neg hbig]
        rw [hstep]
        refine ⟨fun h => Option.noConfusion h, fun s h => ?_⟩
        have hs : size = s := Option.some.inj h
        show writeFs fs name size = fs ++ [(name, s)]
        rw [writeFs_fresh fs name size hfs, hs]

/-- Invariant of the save loop: at most `TARGET_COUNT` slots stored, file
names are exactly `1 .. saved` in order, and every stored size fits the
budget. -/
theorem saveLoop_invariant : ∀ (slots : List (List Attempt)) (saved : Nat)
    (fs : List (Nat × Nat)),
    saved ≤ TARGET_COUNT →
    fs.map Prod.fst = List.range' 1 saved →
    (∀ p ∈ fs, p.2 ≤ MAX_BYTES) →
    (saveLoop slots saved fs).1 ≤ TARGET_COUNT ∧
    ((saveLoop slots saved fs).2).map Prod.fst = List.range' 1 (saveLoop slots saved fs).1 ∧
    (∀ p ∈ (saveLoop slots saved fs).2, p.2 ≤ MAX_BYTES) := by
  intro slots
  induction slots with
  | nil => intro saved fs h1 h2 h3; exact ⟨h1, h2, h3⟩
  | cons slot rest ih =>
    intro saved fs h1 h2 h3
    by_cases hlt : saved < TARGET_COUNT
    · have hfresh : ∀ q ∈ fs, q.1 ≠ saved + 1 := by
        intro q hq
        have : q.1 ∈ fs.map Prod.fst := List.mem_map.mpr ⟨q, hq, rfl⟩
        rw [h2] at this
        have := List.mem_range'_1.mp this
        omega
      rw [saveLoop, if_pos hlt]
      rcases hres : tryCandidates (saved + 1) slot fs with ⟨opt, fs1⟩
      have hfst : (tryCandidates (saved + 1) slot fs).1 = opt := by rw [hres]
      have hsnd : (tryCandidates (saved + 1) slot fs).2 = fs1 := by rw [hres]
      have hbud : ∀ p ∈ fs1, p.2 ≤ MAX_BYTES := by
        rw [← hsnd]
        exact tryCandidates_budget (saved + 1) slot fs h3
      cases opt with
      | none =>
        have hsame : fs1 = fs := by
          rw [← hsnd]
          exact (tryCandidates_fresh (saved + 1) slot fs hfresh).1 hfst
        exact ih saved fs1 h1 (by rw [hsame]; exact h2) hbud
      | some s =>
        have happ : fs1 = fs ++ [(saved + 1, s)] := by
          rw [← hsnd]
          exact (tryCandidates_fresh (saved + 1) slot fs hfresh).2 s hfst
        refine ih (saved + 1) fs1 (by omega) ?_ hbud
        have hone : (1 : Nat) + 1 * saved = saved + 1 := by omega
        rw [happ, List.map_append, h2, List.range'_concat, hone]
        simp
    · rw [saveLoop, if_neg hlt]
      exact ⟨h1, h2, h3⟩

/-- C1: every file that remains written in the output directory at the end
of the run is at most `MAX_BYTES` bytes: an oversized download is either
rewritten by `compressToLimit` under the budget or unlinked before the loop
moves past that candidate. -/
theorem final_files_within_budget (slots : List (List Attempt)) (p : Nat × Nat)
    (hp : p ∈ (saveLoop slots 0 []).2) : p.2 ≤ MAX_BYTES :=
  (saveLoop_invariant slots 0 [] (by omega) rfl (by simp)).2.2 p hp

/-- Witness for `final_files_within_budget`: a run with one slot whose
first candidate downloads a 100-byte file. -/
theorem final_files_within_budget_witness : ((1, 100) : Nat × Nat).2 ≤ MAX_BYTES :=
  final_files_within_budget [[⟨some 100, none, fun _ _ => 0⟩]] (1, 100) (by decide)

/-- C3: the run writes between 0 and `TARGET_COUNT` files, and they are
named with consecutive indices starting at 1 with no gaps, because the file
name index is `saved + 1` and `saved` increments exactly when a candidate
is stored. -/
theorem output_files_consecutive (slots : List (List Attempt)) :
    (saveLoop slots 0 []).1 ≤ TARGET_COUNT ∧
    ((saveLoop slots 0 []).2).map Prod.fst = List.range' 1 (saveLoop slots 0 []).1 := by
  have h := saveLoop_invariant slots 0 [] (by omega) rfl (by simp)
  exact ⟨h.1, h.2.1⟩

/-- The item loop never fetches: the trace is untouched. -/
theorem processItems_trace : ∀ (items : List RawItem) (st : CollectState),
    (processItems items st).trace = st.trace := by
  intro items
  induction items with
  | nil => intro st; rfl
  | cons item rest ih =>
    intro st
    cases hu : item.url with
    | none =>
      have hstep : processItems (item :: rest) st = processItems rest st := by
        simp only [processItems, hu]
      rw [hstep]
      exact ih st
    | some u =>
      by_cases hk : item.urlbase.getD (bingUrl u) ∈ st.seen
      · have hstep : processItems (item :: rest) st = processItems rest st := by
          simp only [processItems, hu, if_pos hk]
        rw [hstep]
        exact ih st
      · by_cases hfull : TARGET_COUNT ≤
            (st.images ++ [Candidate.mk (bingUrl u) item.urlbase]).length
        · have hstep : processItems (item :: rest) st =
              ⟨st.images ++ [⟨bingUrl u, item.urlbase⟩],
                item.urlbase.getD (bingUrl u) :: st.seen, st.trace⟩ := by
            simp only [processItems, hu, if_neg hk, if_pos hfull]
          rw [hstep]
        · have hstep : processItems (item :: rest) st =
              processItems rest ⟨st.images ++ [⟨bingUrl u, item.urlbase⟩],
                item.urlbase.getD (bingUrl u) :: st.seen, st.trace⟩ := by
            simp only [processItems, hu, if_neg hk, if_neg hfull]
          rw [hstep, ih]

/-- The item loop only appends to the collected list. -/
theorem processItems_len_mono : ∀ (items : List RawItem) (st : CollectState),
    st.images.length ≤ (processItems items st).images.length := by
  intro items
  induction items with
  | nil => intro st; exact Nat.le_refl _
  | cons item rest ih =>
    intro st
    cases hu : item.url with
    | none =>
      have hstep : processItems (item :: rest) st = processItems rest st := by
        simp only [processItems, hu]
      rw [hstep]
      exact ih st
    | some u =>
      by_cases hk : item.urlbase.getD (bingUrl u) ∈ st.seen
      · have hstep : processItems (item :: rest) st = processItems rest st := by
          simp only [processItems, hu, if_pos hk]
        rw [hstep]
        exact ih st
      · by_cases hfull : TARGET_COUNT ≤
            (st.images ++ [Candidate.mk (bingUrl u) item.urlbase]).length
        · have hstep : processItems (item :: rest) st =
              ⟨st.images ++ [⟨bingUrl u, item.urlbase⟩],
                item.urlbase.getD (bingUrl u) :: st.seen, st.trace⟩ := by
            simp only [processItems, hu, if_neg hk, if_pos hfull]
          rw [hstep]
          simp
        · have hstep : processItems (item :: rest) st =
              processItems rest ⟨st.images ++ [⟨bingUrl u, item.urlbase⟩],
                item.urlbase.getD (bingUrl u) :: st.seen, st.trace⟩ := by
            simp only [processItems, hu, if_neg hk, if_neg hfull]
          rw [hstep]
          have := ih ⟨st.images ++ [⟨bingUrl u, item.urlbase⟩],
            item.urlbase.getD (bingUrl u) :: st.seen, st.trace⟩
          simp at this
          omega

/-- Entering the item loop below the target keeps the collected count at or
below the target (a push past the target breaks out immediately). -/
theorem processItems_len_le : ∀ (items : List RawItem) (st : CollectState),
    st.images.length < TARGET_COUNT →
    (processItems items st).images.length ≤ TARGET_COUNT := by
  intro items
  induction items with
  | nil => intro st h; exact Nat.le_of_lt h
  | cons item rest ih =>
    intro st h
    cases hu : item.url with
    | none =>
      have hstep : processItems (item :: rest) st = processItems rest st := by
        simp only [processItems, hu]
      rw [hstep]
      exact ih st h
    | some u =>
      by_cases hk : item.urlbase.getD (bingUrl u) ∈ st.seen
      · have hstep : processItems (item :: rest) st = processItems rest st := by
          simp only [processItems, hu, if_pos hk]
        rw [hstep]
        exact ih st h
      · by_cases hfull : TARGET_COUNT ≤
            (st.images ++ [Candidate.mk (bingUrl u) item.urlbase]).length
        · have hstep : processItems (item :: rest) st =
              ⟨st.images ++ [⟨bingUrl u, item.urlbase⟩],
                item.urlbase.getD (bingUrl u) :: st.seen, st.trace⟩ := by
            simp only [processItems, hu, if_neg hk, if_pos hfull]
          rw [hstep]
          simp at hfull ⊢
          omega
        · have hstep : processItems (item :: rest) st =
              processItems rest ⟨st.images ++ [⟨bingUrl u, item.urlbase⟩],
                item.urlbase.getD (bingUrl u) :: st.seen, st.trace⟩ := by
            simp only [processItems, hu, if_neg hk, if_neg hfull]
          rw [hstep]
          apply ih
          simp at hfull ⊢
          omega

/-- The item loop only adds keys to the seen set. -/
theorem processItems_seen_mono : ∀ (items : List RawItem) (st : CollectState) (k : String),
    k ∈ st.seen → k ∈ (processItems items st).seen := by
  intro items
  induction items with
  | nil => intro st k h; exact h
  | cons item rest ih =>
    intro st k h
    cases hu : item.url with
    | none =>
      have hstep : processItems (item :: rest) st = processItems rest st := by
        simp only [processItems, hu]
      rw [hstep]
      exact ih st k h
    | some u =>
      by_cases hk : item.urlbase.getD (bingUrl u) ∈ st.seen
      · have hstep : processItems (item :: rest) st = processItems rest st := by
          simp only [processItems, hu, if_pos hk]
        rw [hstep]
        exact ih st k h
      · by_cases hfull : TARGET_COUNT ≤
            (st.images ++ [Candidate.mk (bingUrl u) item.urlbase]).length
        · have hstep : processItems (item :: rest) st =
              ⟨st.images ++ [⟨bingUrl u, item.urlbase⟩],
                item.urlbase.getD (bingUrl u) :: st.seen, st.trace⟩ := by
            simp only [processItems, hu, if_neg hk, if_pos hfull]
          rw [hstep]
          exact List.mem_cons_of_mem _ h
        · have hstep : processItems (item :: rest) st =
              processItems rest ⟨st.images ++ [⟨bingUrl u, item.urlbase⟩],
                item.urlbase.getD (bingUrl u) :: st.seen, st.trace⟩ := by
            simp only [processItems, hu, if_neg hk, if_neg hfull]
          rw [hstep]
          exact ih _ k (List.mem_cons_of_mem _ h)

/-- The market loop only appends to the collected list. -/
theorem processMarkets_len_mono (fetch : Nat → String → List RawItem) (idx : Nat) :
    ∀ (mkts : List String) (st : CollectState),
      st.images.length ≤ (processMarkets fetch idx mkts st).images.length := by
  intro mkts
  induction mkts with
  | nil => intro st; exact Nat.le_refl _
  | cons mkt rest ih =>
    intro st
    have h1 : st.images.length ≤
        (processItems (fetch idx mkt)
          ⟨st.images, st.seen, st.trace ++ [(idx, mkt)]⟩).images.length :=
      processItems_len_mono (fetch idx mkt) ⟨st.images, st.seen, st.trace ++ [(idx, mkt)]⟩
    by_cases hb : TARGET_COUNT ≤ (processItems (fetch idx mkt)
        ⟨st.images, st.seen, st.trace ++ [(idx, mkt)]⟩).images.length
    · have hstep : processMarkets fetch idx (mkt :: rest) st =
          processItems (fetch idx mkt) ⟨st.images, st.seen, st.trace ++ [(idx, mkt)]⟩ := by
        simp only [processMarkets, if_pos hb]
      rw [hstep]
      exact h1
    · have hstep : processMarkets fetch idx (mkt :: rest) st =
          processMarkets fetch idx rest
            (processItems (fetch idx mkt) ⟨st.images, st.seen, st.trace ++ [(idx, mkt)]⟩) := by
        simp only [processMarkets, if_neg hb]
      rw [hstep]
      exact Nat.le_trans h1 (ih _)

/-- Entering the market loop below the target keeps the collected count at
or below the target. -/
theorem processMarkets_len_le (fetch : Nat → String → List RawItem) (idx : Nat) :
    ∀ (mkts : List String) (st : CollectState),
      st.images.length < TARGET_COUNT →
      (processMarkets fetch idx mkts st).images.length ≤ TARGET_COUNT := by
  intro mkts
  induction mkts with
  | nil => intro st h; exact Nat.le_of_lt h
  | cons mkt rest ih =>
    intro st h
    have h1 : (processItems (fetch idx mkt)
        ⟨st.images, st.seen, st.trace ++ [(idx, mkt)]⟩).images.length ≤ TARGET_COUNT :=
      processItems_len_le (fetch idx mkt) ⟨st.images, st.seen, st.trace ++ [(idx, mkt)]⟩ h
    by_cases hb : TARGET_COUNT ≤ (processItems (fetch idx mkt)
        ⟨st.images, st.seen, st.trace ++ [(idx, mkt)]⟩).images.length
    · have hstep : processMarkets fetch idx (mkt :: rest) st =
          processItems (fetch idx mkt) ⟨st.images, st.seen, st.trace ++ [(idx, mkt)]⟩ := by
        simp only [processMarkets, if_pos hb]
      rw [hstep]
      exact h1
    · have hstep : processMarkets fetch idx (mkt :: rest) st =
          processMarkets fetch idx rest
            (processItems (fetch idx mkt) ⟨st.images, st.seen, st.trace ++ [(idx, mkt)]⟩) := by
        simp only [processMarkets, if_neg hb]
      rw [hstep]
      exact ih _ (by omega)

/-- The market loop only adds keys to the seen set. -/
theorem processMarkets_seen_mono (fetch : Nat → String → List RawItem) (idx : Nat) :
    ∀ (mkts : List String) (st : CollectState) (k : String),
      k ∈ st.seen → k ∈ (processMarkets fetch idx mkts st).seen := by
  intro mkts
  induction mkts with
  | nil => intro st k h; exact h
  | cons mkt rest ih =>
    intro st k h
    have h1 : k ∈ (processItems (fetch idx mkt)
        ⟨st.images, st.seen, st.trace ++ [(idx, mkt)]⟩).seen :=
      processItems_seen_mono (fetch idx mkt) ⟨st.images, st.seen, st.trace ++ [(idx, mkt)]⟩ k h
    by_cases hb : TARGET_COUNT ≤ (processItems (fetch idx mkt)
        ⟨st.images, st.seen, st.trace ++ [(idx, mkt)]⟩).images.length
    · have hstep : processMarkets fetch idx (mkt :: rest) st =
          processItems (fetch idx mkt) ⟨st.images, st.seen, st.trace ++ [(idx, mkt)]⟩ := by
        simp only [processMarkets, if_pos hb]
      rw [hstep]
      exact h1
    · have hstep : processMarkets fetch idx (mkt :: rest) st =
          processMarkets fetch idx rest
            (processItems (fetch idx mkt) ⟨st.images, st.seen, st.trace ++ [(idx, mkt)]⟩) := by
        simp only [processMarkets, if_neg hb]
      rw [hstep]
      exact ih _ k h1

/-- Once the target is reached the day loop does nothing. -/
theorem collectLoop_halt (fetch : Nat → String → List RawItem) :
    ∀ (fuel : Nat) (st : CollectState) (idx : Nat),
      ¬ st.images.length < TARGET_COUNT → collectLoop fetch fuel st idx = st := by
  intro fuel st idx h
  cases fuel with
  | zero => rfl
  | succ fuel =>
    simp only [collectLoop]
    rw [if_neg]
    intro hg
    exact h hg.1

/-- The day loop only appends to the collected list. -/
theorem collectLoop_len_mono (fetch : Nat → String → List RawItem) :
    ∀ (fuel : Nat) (st : CollectState) (idx : Nat),
      st.images.length ≤ (collectLoop fetch fuel st idx).images.length := by
  intro fuel
  induction fuel with
  | zero => intro st idx; exact Nat.le_refl _
  | succ fuel ih =>
    intro st idx
    by_cases hg : st.images.length < TARGET_COUNT ∧ idx < MAX_FETCH_DAYS
    · have hstep : collectLoop fetch (fuel + 1) st idx =
          collectLoop fetch fuel (processMarkets fetch idx MARKETS st) (idx + 1) := by
        simp only [collectLoop, if_pos hg]
      rw [hstep]
      exact Nat.le_trans (processMarkets_len_mono fetch idx MARKETS st) (ih _ _)
    · have hstep : collectLoop fetch (fuel + 1) st idx = st := by
        simp only [collectLoop, if_neg hg]
      rw [hstep]

/-- The day loop keeps the collected count at or below the target. -/
theorem collectLoop_len_le (fetch : Nat → String → List RawItem) :
    ∀ (fuel : Nat) (st : CollectState) (idx : Nat),
      st.images.length ≤ TARGET_COUNT →
      (collectLoop fetch fuel st idx).images.length ≤ TARGET_COUNT := by
  intro fuel
  induction fuel with
  | zero => intro st idx h; exact h
  | succ fuel ih =>
    intro st idx h
    by_cases hg : st.images.length < TARGET_COUNT ∧ idx < MAX_FETCH_DAYS
    · have hstep : collectLoop fetch (fuel + 1) st idx =
          collectLoop fetch fuel (processMarkets fetch idx MARKETS st) (idx + 1) := by
        simp only [collectLoop, if_pos hg]
      rw [hstep]
      exact ih _ _ (processMarkets_len_le fetch idx MARKETS st hg.1)
    · have hstep : collectLoop fetch (fuel + 1) st idx = st := by
        simp only [collectLoop, if_neg hg]
      rw [hstep]
      exact h

/-- The day loop only adds keys to the seen set. -/
theorem collectLoop_seen_mono (fetch : Nat → String → List RawItem) :
    ∀ (fuel : Nat) (st : CollectState) (idx : Nat) (k : String),
      k ∈ st.seen → k ∈ (collectLoop fetch fuel st idx).seen := by
  intro fuel
  induction fuel with
  | zero => intro st idx k h; exact h
  | succ fuel ih =>
    intro st idx k h
    by_cases hg : st.images.length < TARGET_COUNT ∧ idx < MAX_FETCH_DAYS
    · have hstep : collectLoop fetch (fuel + 1) st idx =
          collectLoop fetch fuel (processMarkets fetch idx MARKETS st) (idx + 1) := by
        simp only [collectLoop, if_pos hg]
      rw [hstep]
      exact ih _ _ k (processMarkets_seen_mono fetch idx MARKETS st k h)
    · have hstep : collectLoop fetch (fuel + 1) st idx = st := by
        simp only [collectLoop, if_neg hg]
      rw [hstep]
      exact h

/-- The collector invariant: collected keys are pairwise distinct and the
seen set holds exactly the collected keys.  Preserved by the item loop. -/
theorem processItems_inv : ∀ (items : List RawItem) (st : CollectState),
    (st.images.map ckey).Nodup →
    (∀ k, k ∈ st.seen ↔ k ∈ st.images.map ckey) →
    ((processItems items st).images.map ckey).Nodup ∧
    (∀ k, k ∈ (processItems items st).seen ↔
      k ∈ (processItems items st).images.map ckey) := by
  intro items
  induction items with
  | nil => intro st h1 h2; exact ⟨h1, h2⟩
  | cons item rest ih =>
    intro st h1 h2
    cases hu : item.url with
    | none =>
      have hstep : processItems (item :: rest) st = processItems rest st := by
        simp only [processItems, hu]
      rw [hstep]
      exact ih st h1 h2
    | some u =>
      by_cases hk : item.urlbase.getD (bingUrl u) ∈ st.seen
      · have hstep : processItems (item :: rest) st = processItems rest st := by
          simp only [processItems, hu, if_pos hk]
        rw [hstep]
        exact ih st h1 h2
      · have hnotin : item.urlbase.getD (bingUrl u) ∉ st.images.map ckey :=
          fun hmem => hk ((h2 _).mpr hmem)
        have hmap : (st.images ++ [Candidate.mk (bingUrl u) item.urlbase]).map ckey =
            st.images.map ckey ++ [item.urlbase.getD (bingUrl u)] := by
          rw [List.map_append]
          rfl
        have h1n : ((st.images ++ [Candidate.mk (bingUrl u) item.urlbase]).map ckey).Nodup := by
          rw [hmap]
          refine List.nodup_append.mpr ⟨h1, List.nodup_singleton _, ?_⟩
          intro a ha hb
          rw [List.mem_singleton] at hb
          exact hnotin (hb ▸ ha)
        have h2n : ∀ k, k ∈ item.urlbase.getD (bingUrl u) :: st.seen ↔
            k ∈ (st.images ++ [Candidate.mk (bingUrl u) item.urlbase]).map ckey := by
          intro k
          rw [hmap, List.mem_cons, List.mem_append, List.mem_singleton, h2 k]
          tauto
        by_cases hfull : TARGET_COUNT ≤
            (st.images ++ [Candidate.mk (bingUrl u) item.urlbase]).length
        · have hstep : processItems (item :: rest) st =
              ⟨st.images ++ [⟨bingUrl u, item.urlbase⟩],
                item.urlbase.getD (bingUrl u) :: st.seen, st.trace⟩ := by
            simp only [processItems, hu, if_neg hk, if_pos hfull]
          rw [hstep]
          exact ⟨h1n, h2n⟩
        · have hstep : processItems (item :: rest) st =
              processItems rest ⟨st.images ++ [⟨bingUrl u, item.urlbase⟩],
                item.urlbase.getD (bingUrl u) :: st.seen, st.trace⟩ := by
            simp only [processItems, hu, if_neg hk, if_neg hfull]
          rw [hstep]
          exact ih _ h1n h2n

/-- The collector invariant is preserved by the market loop. -/
theorem processMarkets_inv (fetch : Nat → String → List RawItem) (idx : Nat) :
    ∀ (mkts : List String) (st : CollectState),
      (st.images.map ckey).Nodup →
      (∀ k, k ∈ st.seen ↔ k ∈ st.images.map ckey) →
      ((processMarkets fetch idx mkts st).images.map ckey).Nodup ∧
      (∀ k, k ∈ (processMarkets fetch idx mkts st).seen ↔
        k ∈ (processMarkets fetch idx mkts st).images.map ckey) := by
  intro mkts
  induction mkts with
  | nil => intro st h1 h2; exact ⟨h1, h2⟩
  | cons mkt rest ih =>
    intro st h1 h2
    have hinv := processItems_inv (fetch idx mkt)
      ⟨st.images, st.seen, st.trace ++ [(idx, mkt)]⟩ h1 h2
    by_cases hb : TARGET_COUNT ≤ (processItems (fetch idx mkt)
        ⟨st.images, st.seen, st.trace ++ [(idx, mkt)]⟩).images.length
    · have hstep : processMarkets fetch idx (mkt :: rest) st =
          processItems (fetch idx mkt) ⟨st.images, st.seen, st.trace ++ [(idx, mkt)]⟩ := by
        simp only [processMarkets, if_pos hb]
      rw [hstep]
      exact hinv
    · have hstep : processMarkets fetch idx (mkt :: rest) st =
          processMarkets fetch idx rest
            (processItems (fetch idx mkt) ⟨st.images, st.seen, st.trace ++ [(idx, mkt)]⟩) := by
        simp only [processMarkets, if_neg hb]
      rw [hstep]
      exact ih _ hinv.1 hinv.2

/-- The collector invariant is preserved by the day loop. -/
theorem collectLoop_inv (fetch : Nat → String → List RawItem) :
    ∀ (fuel : Nat) (st : CollectState) (idx : Nat),
      (st.images.map ckey).Nodup →
      (∀ k, k ∈ st.seen ↔ k ∈ st.images.map ckey) →
      ((collectLoop fetch fuel st idx).images.map ckey).Nodup ∧
      (∀ k, k ∈ (collectLoop fetch fuel st idx).seen ↔
        k ∈ (collectLoop fetch fuel st idx).images.map ckey) := by
  intro fuel
  induction fuel with
  | zero => intro st idx h1 h2; exact ⟨h1, h2⟩
  | succ fuel ih =>
    intro st idx h1 h2
    by_cases hg : st.images.length < TARGET_COUNT ∧ idx < MAX_FETCH_DAYS
    · have hstep : collectLoop fetch (fuel + 1) st idx =
          collectLoop fetch fuel (processMarkets fetch idx MARKETS st) (idx + 1) := by
        simp only [collectLoop, if_pos hg]
      rw [hstep]
      have hinv := processMarkets_inv fetch idx MARKETS st h1 h2
      exact ih _ _ hinv.1 hinv.2
    · have hstep : collectLoop fetch (fuel + 1) st idx = st := by
        simp only [collectLoop, if_neg hg]
      rw [hstep]
      exact ⟨h1, h2⟩

/-- When the item loop finishes below the target, it processed every item,
so the key of every item carrying a url is in the final seen set. -/
theorem processItems_covers : ∀ (items : List RawItem) (st : CollectState),
    (processItems items st).images.length < TARGET_COUNT →
    ∀ item ∈ items, ∀ u, item.url = some u →
      item.urlbase.getD (bingUrl u) ∈ (processItems items st).seen := by
  intro items
  induction items with
  | nil => intro st _ item h; exact absurd h (List.not_mem_nil item)
  | cons item rest ih =>
    intro st hlen item2 hmem u hu2
    cases hu : item.url with
    | none =>
      have hstep : processItems (item :: rest) st = processItems rest st := by
        simp only [processItems, hu]
      rw [hstep] at hlen ⊢
      rcases List.mem_cons.mp hmem with rfl | h2
      · rw [hu] at hu2
        exact Option.noConfusion hu2
      · exact ih st hlen item2 h2 u hu2
    | some u0 =>
      by_cases hk : item.urlbase.getD (bingUrl u0) ∈ st.seen
      · have hstep : processItems (item :: rest) st = processItems rest st := by
          simp only [processItems, hu, if_pos hk]
        rw [hstep] at hlen ⊢
        rcases List.mem_cons.mp hmem with rfl | h2
        · rw [hu] at hu2
          have : u0 = u := Option.some.inj hu2
          rw [← this]
          exact processItems_seen_mono rest st _ hk
        · exact ih st hlen item2 h2 u hu2
      · by_cases hfull : TARGET_COUNT ≤
            (st.images ++ [Candidate.mk (bingUrl u0) item.urlbase]).length
        · have hstep : processItems (item :: rest) st =
              ⟨st.images ++ [⟨bingUrl u0, item.urlbase⟩],
                item.urlbase.getD (bingUrl u0) :: st.seen, st.trace⟩ := by
            simp only [processItems, hu, if_neg hk, if_pos hfull]
          rw [hstep] at hlen
          simp at hlen hfull
          omega
        · have hstep : processItems (item :: rest) st =
              processItems rest ⟨st.images ++ [⟨bingUrl u0, item.urlbase⟩],
                item.urlbase.getD (bingUrl u0) :: st.seen, st.trace⟩ := by
            simp only [processItems, hu, if_neg hk, if_neg hfull]
          rw [hstep] at hlen ⊢
          rcases List.mem_cons.mp hmem with rfl | h2
          · rw [hu] at hu2
            have : u0 = u := Option.some.inj hu2
            rw [← this]
            exact processItems_seen_mono rest _ _ (List.mem_cons_self _ _)
          · exact ih _ hlen item2 h2 u hu2

/-- When the market loop finishes below the target, every market in the
list was fetched and fully processed. -/
theorem processMarkets_covers (fetch : Nat → String → List RawItem) (idx : Nat) :
    ∀ (mkts : List String) (st : CollectState),
      (processMarkets fetch idx mkts st).images.length < TARGET_COUNT →
      ∀ m ∈ mkts, ∀ item ∈ fetch idx m, ∀ u, item.url = some u →
        item.urlbase.getD (bingUrl u) ∈ (processMarkets fetch idx mkts st).seen := by
  intro mkts
  induction mkts with
  | nil => intro st _ m h; exact absurd h (List.not_mem_nil m)
  | cons mkt rest ih =>
    intro st hlen m hm item hitem u hu
    by_cases hb : TARGET_COUNT ≤ (processItems (fetch idx mkt)
        ⟨st.images, st.seen, st.trace ++ [(idx, mkt)]⟩).images.length
    · have hstep : processMarkets fetch idx (mkt :: rest) st =
          processItems (fetch idx mkt) ⟨st.images, st.seen, st.trace ++ [(idx, mkt)]⟩ := by
        simp only [processMarkets, if_pos hb]
      rw [hstep] at hlen
      omega
    · have hstep : processMarkets fetch idx (mkt :: rest) st =
          processMarkets fetch idx rest
            (processItems (fetch idx mkt) ⟨st.images, st.seen, st.trace ++ [(idx, mkt)]⟩) := by
        simp only [processMarkets, if_neg hb]
      rw [hstep] at hlen ⊢
      rcases List.mem_cons.mp hm with rfl | h2
      · have hlen1 : (processItems (fetch idx m)
            ⟨st.images, st.seen, st.trace ++ [(idx, m)]⟩).images.length < TARGET_COUNT := by
          omega
        have hin := processItems_covers (fetch idx m)
          ⟨st.images, st.seen, st.trace ++ [(idx, m)]⟩ hlen1 item hitem u hu
        exact processMarkets_seen_mono fetch idx rest _ _ hin
      · exact ih _ hlen m h2 item hitem u hu

/-- When the day loop finishes below the target with enough fuel, every
remaining day offset was fetched for every market and fully processed. -/
theorem collectLoop_covers (fetch : Nat → String → List RawItem) :
    ∀ (fuel : Nat) (st : CollectState) (idx : Nat),
      MAX_FETCH_DAYS ≤ idx + fuel →
      (collectLoop fetch fuel st idx).images.length < TARGET_COUNT →
      ∀ d, idx ≤ d → d < MAX_FETCH_DAYS →
        ∀ m ∈ MARKETS, ∀ item ∈ fetch d m, ∀ u, item.url = some u →
          item.urlbase.getD (bingUrl u) ∈ (collectLoop fetch fuel st idx).seen := by
  intro fuel
  induction fuel with
  | zero => intro st idx hfuel _ d hd1 hd2; omega
  | succ fuel ih =>
    intro st idx hfuel hlen d hd1 hd2 m hm item hitem u hu
    by_cases hg : st.images.length < TARGET_COUNT ∧ idx < MAX_FETCH_DAYS
    · have hstep : collectLoop fetch (fuel + 1) st idx =
          collectLoop fetch fuel (processMarkets fetch idx MARKETS st) (idx + 1) := by
        simp only [collectLoop, if_pos hg]
      rw [hstep] at hlen ⊢
      rcases Nat.eq_or_lt_of_le hd1 with rfl | hd3
      · have hlen1 : (processMarkets fetch idx MARKETS st).images.length < TARGET_COUNT := by
          have := collectLoop_len_mono fetch fuel (processMarkets fetch idx MARKETS st) (idx + 1)
          omega
        have hin := processMarkets_covers fetch idx MARKETS st hlen1 m hm item hitem u hu
        exact collectLoop_seen_mono fetch fuel _ (idx + 1) _ hin
      · exact ih _ (idx + 1) (by omega) hlen d (by omega) hd2 m hm item hitem u hu
    · have hstep : collectLoop fetch (fuel + 1) st idx = st := by
        simp only [collectLoop, if_neg hg]
      rw [hstep] at hlen
      rcases Decidable.not_and_iff_or_not.mp hg with h | h
      · omega
      · omega

/-- C4: collected candidates are deduplicated by the `urlbase` key (falling
back to the full url when `urlbase` is absent): each key occurs at most
once, and exactly once when the run ends below the target and some fetched
item with a usable url carried that key. -/
theorem dedup_by_urlbase (fetch : Nat → String → List RawItem) (k : String) :
    ((collect fetch).images.map ckey).count k ≤ 1 ∧
    ((collect fetch).images.length < TARGET_COUNT →
      (∃ d m item u, d < MAX_FETCH_DAYS ∧ m ∈ MARKETS ∧ item ∈ fetch d m ∧
        item.url = some u ∧ item.urlbase.getD (bingUrl u) = k) →
      ((collect fetch).images.map ckey).count k = 1) := by
  have hinv := collectLoop_inv fetch MAX_FETCH_DAYS ⟨[], [], []⟩ 0
    (by simp) (by intro k; simp)
  have hle1 : ((collect fetch).images.map ckey).count k ≤ 1 :=
    List.nodup_iff_count_le_one.mp hinv.1 k
  refine ⟨hle1, fun hlen hex => ?_⟩
  rcases hex with ⟨d, m, item, u, hd, hm, hitem, hu, hkey⟩
  have hseen : k ∈ (collect fetch).seen := by
    rw [← hkey]
    exact collectLoop_covers fetch MAX_FETCH_DAYS ⟨[], [], []⟩ 0 (by omega) hlen
      d (Nat.zero_le d) hd m hm item hitem u hu
  have hmem : k ∈ (collect fetch).images.map ckey := (hinv.2 k).mp hseen
  have hpos : 0 < ((collect fetch).images.map ckey).count k :=
    List.count_pos_iff.mpr hmem
  omega

/-- Witness for `dedup_by_urlbase`: a fetch yielding the key "B" twice on
day 0 for the first market collects it exactly once. -/
theorem dedup_by_urlbase_witness :
    ((collect (fun d m => if d = 0 ∧ m = "zh-CN" then
        [⟨some "/a", some "B"⟩, ⟨some "/b", some "B"⟩] else [])).images.map ckey).count
      "B" = 1 :=
  (dedup_by_urlbase (fun d m => if d = 0 ∧ m = "zh-CN" then
      [⟨some "/a", some "B"⟩, ⟨some "/b", some "B"⟩] else []) "B").2
    (by decide)
    ⟨0, "zh-CN", ⟨some "/a", some "B"⟩, "/a", by decide, by decide, by decide, rfl, rfl⟩

/-- Splitting the day-major fetch order at the first remaining day. -/
theorem dayMajorFrom_cons (idx : Nat) (h : idx < MAX_FETCH_DAYS) :
    dayMajorFrom idx = MARKETS.map (fun m => (idx, m)) ++ dayMajorFrom (idx + 1) := by
  unfold dayMajorFrom
  have h8 : MAX_FETCH_DAYS - idx = (MAX_FETCH_DAYS - (idx + 1)) + 1 := by omega
  rw [h8, List.range'_succ, List.flatMap_cons]

theorem dayMajorFrom_zero : dayMajorFrom 0 = dayMajorTrace := by
  unfold dayMajorFrom dayMajorTrace
  rw [List.range_eq_range', Nat.sub_zero]

/-- The market loop appends a prefix of its market list to the trace, and
the whole list when it finishes below the target. -/
theorem processMarkets_trace_seg (fetch : Nat → String → List RawItem) (idx : Nat) :
    ∀ (mkts : List String) (st : CollectState),
      ∃ l, InitSeg l (mkts.map (fun m => (idx, m))) ∧
        (processMarkets fetch idx mkts st).trace = st.trace ++ l ∧
        ((processMarkets fetch idx mkts st).images.length < TARGET_COUNT →
          l = mkts.map (fun m => (idx, m))) := by
  intro mkts
  induction mkts with
  | nil =>
    intro st
    exact ⟨[], ⟨[], rfl⟩, by simp [processMarkets], fun _ => rfl⟩
  | cons mkt rest ih =>
    intro st
    by_cases hb : TARGET_COUNT ≤ (processItems (fetch idx mkt)
        ⟨st.images, st.seen, st.trace ++ [(idx, mkt)]⟩).images.length
    · have hstep : processMarkets fetch idx (mkt :: rest) st =
          processItems (fetch idx mkt) ⟨st.images, st.seen, st.trace ++ [(idx, mkt)]⟩ := by
        simp only [processMarkets, if_pos hb]
      refine ⟨[(idx, mkt)], ⟨rest.map (fun m => (idx, m)), by simp⟩, ?_, ?_⟩
      · rw [hstep, processItems_trace]
      · intro hlen
        rw [hstep] at hlen
        omega
    · have hstep : processMarkets fetch idx (mkt :: rest) st =
          processMarkets fetch idx rest
            (processItems (fetch idx mkt) ⟨st.images, st.seen, st.trace ++ [(idx, mkt)]⟩) := by
        simp only [processMarkets, if_neg hb]
      rcases ih (processItems (fetch idx mkt)
          ⟨st.images, st.seen, st.trace ++ [(idx, mkt)]⟩) with ⟨l, ⟨t, ht⟩, htr, hfull⟩
      refine ⟨(idx, mkt) :: l, ⟨t, by simp [ht]⟩, ?_, ?_⟩
      · rw [hstep, htr, processItems_trace]
        simp
      · intro hlen
        rw [hstep] at hlen
        rw [hfull hlen]
        simp

/-- The day loop appends an initial segment of the day-major fetch order to
the trace. -/
theorem collectLoop_trace_seg (fetch : Nat → String → List RawItem) :
    ∀ (fuel : Nat) (st : CollectState) (idx : Nat),
      ∃ l, InitSeg l (dayMajorFrom idx) ∧
        (collectLoop fetch fuel st idx).trace = st.trace ++ l := by
  intro fuel
  induction fuel with
  | zero => intro st idx; exact ⟨[], ⟨dayMajorFrom idx, by simp⟩, by simp [collectLoop]⟩
  | succ fuel ih =>
    intro st idx
    by_cases hg : st.images.length < TARGET_COUNT ∧ idx < MAX_FETCH_DAYS
    · have hstep : collectLoop fetch (fuel + 1) st idx =
          collectLoop fetch fuel (processMarkets fetch idx MARKETS st) (idx + 1) := by
        simp only [collectLoop, if_pos hg]
      have hday := dayMajorFrom_cons idx hg.2
      rcases processMarkets_trace_seg fetch idx MARKETS st with ⟨l1, ⟨t1, ht1⟩, htr1, hfull1⟩
      by_cases hlen : (processMarkets fetch idx MARKETS st).images.length < TARGET_COUNT
      · rcases ih (processMarkets fetch idx MARKETS st) (idx + 1) with ⟨l2, ⟨t2, ht2⟩, htr2⟩
        refine ⟨l1 ++ l2, ⟨t2, ?_⟩, ?_⟩
        · rw [hday, hfull1 hlen, List.append_assoc, ht2]
        · rw [hstep, htr2, htr1, List.append_assoc]
      · have hhalt := collectLoop_halt fetch fuel (processMarkets fetch idx MARKETS st)
          (idx + 1) hlen
        refine ⟨l1, ⟨t1 ++ dayMajorFrom (idx + 1), ?_⟩, ?_⟩
        · rw [hday, ← ht1, List.append_assoc]
        · rw [hstep, hhalt, htr1]
    · have hstep : collectLoop fetch (fuel + 1) st idx = st := by
        simp only [collectLoop, if_neg hg]
      exact ⟨[], ⟨dayMajorFrom idx, by simp⟩, by rw [hstep]; simp⟩

set_option maxRecDepth 40000 in
/-- C9 counterexample: with a fetch that never finds anything, the second
metadata fetch of the run is day offset 0 for the second locale, not day
offset 1 for the first locale as the claimed nesting (day loop inside the
locale loop) would produce. -/
theorem collector_nesting_counterexample :
    (collect (fun _ _ => [])).trace.take 2 = [(0, "zh-CN"), (0, "en-US")] ∧
    (collect (fun _ _ => [])).trace.take 2 ≠ [(0, "zh-CN"), (1, "zh-CN")] :=
  ⟨by decide, by decide⟩

set_option maxRecDepth 40000 in
/-- C9 (amended): the locale loop is nested inside the day-offset loop
(bounded by `MAX_FETCH_DAYS`): the fetch trace is always an initial segment
of the day-major order (all markets of day 0, then all markets of day 1,
...), the collected count never exceeds the target of 50, and a fetch
producing 50 distinct candidates on the very first call stops the
collection after a single fetch, breaking out of both loops. -/
theorem collector_day_major_order (fetch : Nat → String → List RawItem) :
    InitSeg (collect fetch).trace dayMajorTrace ∧
    (collect fetch).images.length ≤ TARGET_COUNT ∧
    (collect (fun _ _ => (List.range TARGET_COUNT).map
      (fun i => ⟨some (toString i), some (toString i)⟩))).trace = [(0, "zh-CN")] := by
  refine ⟨?_, ?_, by decide⟩
  · rcases collectLoop_trace_seg fetch MAX_FETCH_DAYS ⟨[], [], []⟩ 0 with ⟨l, hseg, htr⟩
    have htr2 : (collect fetch).trace = l := by
      rw [collect, htr]
      rfl
    rw [htr2, ← dayMajorFrom_zero]
    exact hseg
  · exact collectLoop_len_le fetch MAX_FETCH_DAYS ⟨[], [], []⟩ 0 (by decide)

/-- C8: a run that finds zero candidates anywhere exits with status 1 and
writes no files; a run that found at least one candidate finishes with
status 0 even when fewer than `TARGET_COUNT` files were saved. -/
theorem run_exit_codes (fetch : Nat → String → List RawItem) (env : Nat → List Attempt) :
    ((collect fetch).images = [] → mainRun fetch env = (1, 0, [])) ∧
    ((collect fetch).images ≠ [] → (mainRun fetch env).1 = 0) := by
  constructor
  · intro h
    simp [mainRun, h]
  · intro h
    have hne : (collect fetch).images.length ≠ 0 := by
      simpa [List.length_eq_zero] using h
    simp [mainRun, hne]

set_option maxRecDepth 40000 in
/-- Witness for `run_exit_codes`: an always-empty fetch yields exit status
1 and no files; a fetch with one candidate yields exit status 0 even though
only one file could be saved. -/
theorem run_exit_codes_witness :
    mainRun (fun _ _ => []) (fun _ => []) = (1, 0, []) ∧
    (mainRun (fun d m => if d = 0 ∧ m = "zh-CN" then [⟨some "/a", some "B"⟩] else [])
      (fun _ => [⟨some 7, none, fun _ _ => 0⟩])).1 = 0 :=
  ⟨(run_exit_codes (fun _ _ => []) (fun _ => [])).1 (by decide),
   (run_exit_codes (fun d m => if d = 0 ∧ m = "zh-CN" then [⟨some "/a", some "B"⟩] else [])
      (fun _ => [⟨some 7, none, fun _ _ => 0⟩])).2 (by decide)⟩

/-- The padding loop, started on a list matching the cyclic closed form,
produces the closed form of length exactly `TARGET_COUNT`. -/
theorem padLoop_closed (orig : List Candidate) : ∀ (fuel : Nat) (imgs : List Candidate),
    TARGET_COUNT ≤ imgs.length + fuel → imgs.length ≤ TARGET_COUNT →
    imgs = (List.range imgs.length).map (fun j => orig.getD (j % orig.length) ⟨"", none⟩) →
    padLoop orig fuel imgs =
      (List.range TARGET_COUNT).map (fun j => orig.getD (j % orig.length) ⟨"", none⟩) := by
  intro fuel
  induction fuel with
  | zero =>
    intro imgs hfuel hle heq
    have hlen : imgs.length = TARGET_COUNT := by omega
    rw [padLoop, heq, hlen]
  | succ fuel ih =>
    intro imgs hfuel hle heq
    by_cases hlt : imgs.length < TARGET_COUNT
    · have hstep : padLoop orig (fuel + 1) imgs =
          padLoop orig fuel
            (imgs ++ [orig.getD (imgs.length % orig.length) ⟨"", none⟩]) := by
        simp only [padLoop, if_pos hlt]
      rw [hstep]
      apply ih
      · simp only [List.length_append, List.length_cons, List.length_nil]
        omega
      · simp only [List.length_append, List.length_cons, List.length_nil]
        omega
      · have hlen2 : (imgs ++ [orig.getD (imgs.length % orig.length) ⟨"", none⟩]).length =
            imgs.length + 1 := by simp
        rw [hlen2, List.range_succ, List.map_append]
        rw [← heq]
        simp
    · have hstep : padLoop orig (fuel + 1) imgs = imgs := by
        simp only [padLoop, if_neg hlt]
      have hlen : imgs.length = TARGET_COUNT := by omega
      rw [hstep, heq, hlen]

/-- C5: a nonempty collected list shorter than the target is padded by
cycling through the original sequence in order — the padded list is exactly
`TARGET_COUNT` long and its element at every position `j` (hence at
position `k` of the padded tail, with `j = orig.length + k`) is
`orig[j % orig.length]`. -/
theorem padding_cycles (orig : List Candidate) (h0 : 0 < orig.length)
    (hlt : orig.length < TARGET_COUNT) :
    padImages orig =
      (List.range TARGET_COUNT).map (fun j => orig.getD (j % orig.length) ⟨"", none⟩) := by
  rw [padImages, if_pos hlt]
  apply padLoop_closed orig TARGET_COUNT orig (by omega) (by omega)
  apply List.ext_getElem
  · simp
  · intro i h1 h2
    simp only [List.getElem_map, List.getElem_range]
    rw [Nat.mod_eq_of_lt h1, List.getD_eq_getElem orig ⟨"", none⟩ h1]

/-- Witness for `padding_cycles`: three candidates padded to fifty. -/
theorem padding_cycles_witness :
    padImages [⟨"a", none⟩, ⟨"b", none⟩, ⟨"c", none⟩] =
      (List.range TARGET_COUNT).map
        (fun j => ([⟨"a", none⟩, ⟨"b", none⟩, ⟨"c", none⟩] : List Candidate).getD
          (j % ([⟨"a", none⟩, ⟨"b", none⟩, ⟨"c", none⟩] : List Candidate).length)
          ⟨"", none⟩) :=
  padding_cycles [⟨"a", none⟩, ⟨"b", none⟩, ⟨"c", none⟩] (by decide) (by decide)

end BingPhotos
